import Mathlib

/-!
Verification development for the movie recommendation engine
(`recommendation_engine.py`, `app.py`).

Modelling conventions (shallow embedding):

* Python floats are modelled as `ℚ`.  All recommendation scores, ratings and
  sentiment polarities live in `ℚ`.
* The external TF-IDF vectorizer and `cosine_similarity` (scikit-learn) are
  modelled by a deterministic bag-of-words term-frequency vectorizer together
  with `simScore`, the *squared* cosine `dot(u,v)^2 / (|u|^2 |v|^2)`.  Over the
  non-negative count vectors produced here the squared cosine is a strictly
  monotone function of the cosine, so it has the same ties, the same order,
  and the same value-1 locus (identical directions) as the real cosine; every
  claim below depends only on those aspects.  Identical composed feature
  strings yield identical vectors, as with the real vectorizer.
* NumPy's `argsort` (ascending, then reversed by `[::-1]` in the source) is
  modelled as a *stable* ascending insertion sort of indices, which is exactly
  what NumPy's introsort performs on the small arrays used in all concrete
  inputs below (insertion sort is used for short ranges).
* Python's list slicing `l[a:b]` (negative bounds wrap) is modelled by
  `pySlice`; Python's `sorted(..., reverse=True)` and `list.sort(reverse=True)`
  are stable descending sorts, modelled by `sortDescBy`.
* `TextBlob(...).sentiment.polarity` / `.subjectivity` are external NLP
  collaborators; they are passed in as function parameters `pol subj :
  String → ℚ`.
* `difflib.SequenceMatcher.ratio` is an external collaborator; it is modelled
  by the longest-common-subsequence ratio `2·lcs(a,b)/(|a|+|b|)` (the spec's
  own description of the edit-similarity ratio).  No theorem below depends on
  its exact values: every concrete input is routed through the exact-match or
  containment branches before the fuzzy branch is consulted.
* Python dicts (insertion ordered) are modelled as association lists with
  unique keys, built by `upsertMax` / `upsertAdd`.
-/

/-! ## Generic helpers: Python slicing, stable sorting, dictionaries -/

/-- Normalize a Python slice bound against a list of length `len`:
negative bounds count from the end, and everything is clamped to `[0, len]`. -/
def pyIdx (len : Nat) (i : Int) : Nat :=
  if i < 0 then (max 0 ((len : Int) + i)).toNat else min i.toNat len

/-- Python slice `l[start:stop]`. -/
def pySlice {α : Type} (l : List α) (start stop : Int) : List α :=
  let s := pyIdx l.length start
  let t := pyIdx l.length stop
  (l.drop s).take (t - s)

/-- Insert `x` into `l` in front of the first element strictly below it
according to `gt`; elements `x` does not beat are kept in front.  This is the
insertion step of a stable descending sort. -/
def insertDescBy {α : Type} (gt : α → α → Bool) (x : α) : List α → List α
  | [] => [x]
  | y :: rest => if gt x y then x :: y :: rest else y :: insertDescBy gt x rest

/-- Stable descending sort (model of Python's `sorted(..., reverse=True)`). -/
def sortDescBy {α : Type} (gt : α → α → Bool) (l : List α) : List α :=
  l.foldl (fun acc x => insertDescBy gt x acc) []

/-- Insertion step of a stable ascending argsort: index `i` is placed behind
every already-placed index whose value is not strictly larger. -/
def insertAsc (xs : List ℚ) (i : Nat) : List Nat → List Nat
  | [] => [i]
  | j :: rest =>
      if xs.getD i 0 < xs.getD j 0 then i :: j :: rest
      else j :: insertAsc xs i rest

/-- Stable ascending argsort of a list of values (model of `argsort` on the
small arrays arising here). -/
def argsortAsc (xs : List ℚ) : List Nat :=
  (List.range xs.length).foldl (fun acc i => insertAsc xs i acc) []

/-- Descending index order used by the source: ascending argsort, reversed
(the `[::-1]` in `content_based_recommendations`). -/
def argsortDesc (xs : List ℚ) : List Nat :=
  (argsortAsc xs).reverse

/-- Dictionary update keeping the maximum score for an existing key
(`recommendations[title] = max(recommendations[title], score)`), inserting
fresh keys at the end (Python dicts preserve insertion order). -/
def upsertMax : List (String × ℚ) → String → ℚ → List (String × ℚ)
  | [], t, s => [(t, s)]
  | (t', s') :: rest, t, s =>
      if t' = t then (t', max s' s) :: rest else (t', s') :: upsertMax rest t s

/-- Dictionary update adding to the score of an existing key, inserting fresh
keys at the end. -/
def upsertAdd : List (String × ℚ) → String → ℚ → List (String × ℚ)
  | [], t, s => [(t, s)]
  | (t', s') :: rest, t, s =>
      if t' = t then (t', s' + s) :: rest else (t', s') :: upsertAdd rest t s

/-- Contiguous-substring test (Python's `in` on strings). -/
def isSubstr (a b : String) : Bool :=
  b.data.tails.any (fun t => a.data.isPrefixOf t)

/-- Longest common subsequence length, driven by explicit fuel so that it is
structurally recursive (the fuel `|a|+|b|` is always sufficient). -/
def lcsFuel : Nat → List Char → List Char → Nat
  | 0, _, _ => 0
  | _ + 1, [], _ => 0
  | _ + 1, _ :: _, [] => 0
  | f + 1, a :: as, b :: bs =>
      if a = b then lcsFuel f as bs + 1
      else max (lcsFuel f (a :: as) bs) (lcsFuel f as (b :: bs))

def lcsLen (a b : List Char) : Nat := lcsFuel (a.length + b.length) a b

/-- Model of the external `difflib.SequenceMatcher(None, a, b).ratio()`
collaborator: the character-level longest-common-subsequence similarity ratio
in `[0,1]` (the spec's description of the edit-similarity ratio).  No theorem
in this file depends on its exact values. -/
def ratioQ (a b : String) : ℚ :=
  if a.length + b.length = 0 then 1
  else 2 * (lcsLen a.data b.data : ℚ) / ((a.length : ℚ) + (b.length : ℚ))

/-- Mean of a list of rationals (`np.mean` / explicit sum-divide in the
source); 0 on the empty list, which the source never hits. -/
def listMean (l : List ℚ) : ℚ := if l = [] then 0 else l.sum / (l.length : ℚ)

/-- Model of Python's `str.lower()`: character-wise ASCII lowering. -/
def lowerStr (s : String) : String := String.mk (s.data.map Char.toLower)

/-- Split a character list into its maximal whitespace-free words, carrying
the current (reversed) word; no produced word is empty. -/
def splitWsAux : List Char → List Char → List (List Char)
  | [], cur => if cur = [] then [] else [cur.reverse]
  | c :: rest, cur =>
      if c.isWhitespace then
        (if cur = [] then splitWsAux rest [] else cur.reverse :: splitWsAux rest [])
      else splitWsAux rest (c :: cur)

/-- The whitespace-separated words of a character list (Python `str.split()`). -/
def splitWords (l : List Char) : List (List Char) := splitWsAux l []

/-- Join words with single spaces (Python `' '.join(...)`). -/
def intercalateChars : List (List Char) → List Char
  | [] => []
  | [w] => w
  | w :: rest => w ++ ' ' :: intercalateChars rest

/-! ## Data model -/

/-- One review excerpt (`movie['reviews']['results'][k]`); only the `content`
field is read by the scoring code. -/
structure Review where
  content : String
deriving DecidableEq, Repr

/-- An item record as consumed by the engine.  `none` models an absent field
(pandas `NaN` / missing dict key).  The nested `credits`/`keywords` shapes of
the raw provider records are modelled in adapter-normalized form: genre
names, keyword names, cast names and the director name as plain strings. -/
structure Movie where
  id : Option Int := none
  title : Option String := none
  genres : List String := []
  overview : Option String := none
  keywords : List String := []
  cast : List String := []
  director : Option String := none
  vote_average : ℚ := 0
  reviews : List Review := []
deriving DecidableEq, Repr

instance : Inhabited Movie := ⟨{}⟩

/-! ## Feature Composer (`_combine_features`) -/

/-- `_combine_features`: concatenate title (string-repeated three times, as in
`str(row['title']) * 3`), genre names, overview, keyword names, the first five
cast names and the director, space-joined then lower-cased. -/
def combineFeatures (m : Movie) : String :=
  let fs : List String :=
    (match m.title with
     | some t => [t ++ t ++ t]
     | none => []) ++
    m.genres ++
    (match m.overview with
     | some o => [o]
     | none => []) ++
    m.keywords ++
    m.cast.take 5 ++
    (match m.director with
     | some d => if d = "" then [] else [d]
     | none => [])
  lowerStr (String.intercalate " " fs)

/-! ## Text Index (model of the TfidfVectorizer / cosine_similarity
collaborators) -/

/-- Whitespace tokenization of a composed feature string. -/
def wordsOf (s : String) : List String :=
  (s.split Char.isWhitespace).filter (fun w => w ≠ "")

/-- Corpus vocabulary, in first-occurrence order. -/
def vocab (docs : List String) : List String :=
  (docs.foldr (fun d acc => wordsOf d ++ acc) []).dedup

/-- Term-frequency vector of one document over the corpus vocabulary. -/
def tfVec (voc : List String) (doc : String) : List ℚ :=
  let ws := wordsOf doc
  voc.map (fun t => ((ws.filter (fun w => w = t)).length : ℚ))

def dotQ (u v : List ℚ) : ℚ := (List.zipWith (fun a b => a * b) u v).sum

def normSq (u : List ℚ) : ℚ := dotQ u u

/-- Squared-cosine similarity surrogate (see the header note): strictly
monotone in the cosine on the non-negative vectors produced by `tfVec`, hence
order-, tie- and value-1-preserving. -/
def simScore (u v : List ℚ) : ℚ :=
  if normSq u = 0 ∨ normSq v = 0 then 0
  else (dotQ u v) ^ 2 / (normSq u * normSq v)

/-! ## Engine state (`RecommendationEngine`) -/

/-- The two stateful fields read by the recommenders:
`self.movies_df` and `self.tfidf_matrix`. -/
structure Engine where
  movies_df : Option (List Movie)
  tfidf : Option (List (List ℚ))
deriving DecidableEq

/-- Freshly constructed engine (`RecommendationEngine()`). -/
def engine0 : Engine := ⟨none, none⟩

/-- `prepare_data`: on an empty corpus it returns immediately, leaving the
previous state in place; otherwise it replaces both fields from scratch. -/
def prepare_data (e : Engine) (movies : List Movie) : Engine :=
  if movies = [] then e
  else
    let docs := movies.map combineFeatures
    let voc := vocab docs
    { movies_df := some movies, tfidf := some (docs.map (tfVec voc)) }

/-! ## Title Resolver (`_normalize_title`, `_find_best_match`) -/

/-- `_normalize_title`: lower-case, drop characters that are neither
alphanumeric, underscore nor whitespace (`re.sub(r'[^\\w\\s]', '', ...)` over
ASCII), then collapse whitespace runs (`' '.join(....split())`). -/
def normalize_title (t : String) : String :=
  let cleaned := (lowerStr t).data.filter
    (fun c => c.isAlphanum || c = '_' || c.isWhitespace)
  String.mk (intercalateChars (splitWords cleaned))

/-- Loop body of `_find_best_match`: walk the corpus carrying the running
best `(index, score)`; an exact normalized match returns immediately with
confidence 1, containment scores 9/10, anything else scores by the fuzzy
ratio. -/
def findBestAux (nq : String) : List Movie → Nat → Int → ℚ → Int × ℚ
  | [], _, bidx, bscore => (bidx, bscore)
  | m :: rest, i, bidx, bscore =>
      let mt := m.title.getD ""
      if mt = "" then findBestAux nq rest (i + 1) bidx bscore
      else
        let nm := normalize_title mt
        if nq = nm then ((i : Int), 1)
        else if isSubstr nq nm || isSubstr nm nq then
          (if (9 : ℚ)/10 > bscore then findBestAux nq rest (i + 1) (i : Int) ((9 : ℚ)/10)
           else findBestAux nq rest (i + 1) bidx bscore)
        else
          let sc := ratioQ nq nm
          if sc > bscore then findBestAux nq rest (i + 1) (i : Int) sc
          else findBestAux nq rest (i + 1) bidx bscore

/-- `_find_best_match` on an already-extracted corpus (the `movies_df is
None` guard lives in the caller, which never reaches this with no state). -/
def find_best_match (df : List Movie) (title : String) : Int × ℚ :=
  findBestAux (normalize_title title) df 0 (-1) 0

/-! ## Similarity Engine (`content_based_recommendations`) -/

/-- First row position whose title equals the query case-insensitively
(the pandas exact-match pre-step). -/
def exactMatchIdx (df : List Movie) (q : String) : Option Nat :=
  (List.range df.length).find? (fun i =>
    match (df.getD i default).title with
    | some t => lowerStr t = lowerStr q
    | none => false)

/-- Seed-row resolution step of `content_based_recommendations`: the pandas
case-insensitive exact match first, then `_find_best_match` with the
usability threshold `0.5`. -/
def contentIdx (df : List Movie) (movie_title : String) : Option Nat :=
  match exactMatchIdx df movie_title with
  | some i => some i
  | none =>
      let bm := find_best_match df movie_title
      if bm.1 = -1 || bm.2 < 1/2 then none else some bm.1.toNat

/-- Ranking step of `content_based_recommendations`: cosine similarities of
the seed row against the whole matrix, descending index order, Python slice
`[1:n+1]`, then the `(row id, similarity)` comprehension whose guard
`'id' in row` tests that the id *column* exists, i.e. that some corpus movie
carries an id. -/
def contentRank (df : List Movie) (mat : List (List ℚ)) (idx : Nat)
    (n : Int) : List (Option Int × ℚ) :=
  let sims := mat.map (fun row => simScore (mat.getD idx []) row)
  let sel := pySlice (argsortDesc sims) 1 (n + 1)
  if df.any (fun m => m.id.isSome) then
    sel.map (fun i => ((df.getD i default).id, sims.getD i 0))
  else []

/-- `content_based_recommendations`. Returns `(movie id, similarity)` pairs;
ids are `Option Int` because a row can lack the `id` field (NaN). -/
def content_based_recommendations (e : Engine) (movie_title : String)
    (n : Int) : List (Option Int × ℚ) :=
  match e.movies_df, e.tfidf with
  | some df, some mat =>
      match contentIdx df movie_title with
      | none => []
      | some idx => contentRank df mat idx n
  | _, _ => []

/-! ## Keyword fallback (`fuzzy_content_recommendations`) -/

/-- `fuzzy_content_recommendations`: token-overlap scoring against every
corpus movie, skipping near-identical titles, then stable descending sort and
Python slice `[:n]`. -/
def fuzzy_content_recommendations (movie_title : String) (movies : List Movie)
    (n : Int) : List (Option Int × ℚ) :=
  if movies = [] then []
  else
    let nq := normalize_title movie_title
    let title_words := (wordsOf nq).dedup
    let scored := movies.foldl (fun acc m =>
      let mtn := normalize_title (m.title.getD "")
      if ratioQ nq mtn > 9/10 then acc
      else
        let movie_words := (wordsOf mtn).dedup
        let overlap := title_words.filter (fun w => movie_words.contains w)
        let overview := lowerStr (m.overview.getD "")
        let kw := title_words.filter (fun w => w.length > 3 && isSubstr w overview)
        let score : ℚ := (overlap.length : ℚ) * (3/10) + (kw.length : ℚ) * (1/10)
        if score > 0 then acc ++ [(m.id, score)] else acc) []
    pySlice (sortDescBy (fun a b => a.2 > b.2) scored) 0 n

/-! ## Sentiment Scorer (`sentiment_based_recommendations` in the engine,
`analyze_movie_sentiment` in the app) -/

/-- The polarity scores of the reviews the code actually scores: the first
five reviews, dropping empty contents, each truncated to its first 1000
characters before the external polarity call. -/
def reviewPolarities (pol : String → ℚ) (m : Movie) : List ℚ :=
  (m.reviews.take 5).filterMap (fun r =>
    if r.content ≠ "" then some (pol (r.content.take 1000)) else none)

/-- `sentiment_based_recommendations`: per movie, overview polarity (0 when
the overview is absent or empty), averaged fifty-fifty with the mean review
polarity when any review was scored; keep movies reaching `min_sentiment`,
stable-sort descending by `(sentiment, vote_average)`, slice `[:n]`. -/
def sentiment_based_recommendations (pol : String → ℚ) (movies : List Movie)
    (min_sentiment : ℚ) (n : Int) : List (String × ℚ × ℚ) :=
  let scored := movies.foldl (fun acc m =>
    let overview := m.overview.getD ""
    let s0 : ℚ := if overview ≠ "" then pol overview else 0
    let rs := reviewPolarities pol m
    let s : ℚ := if rs ≠ [] then (s0 + listMean rs) / 2 else s0
    if s ≥ min_sentiment then acc ++ [(m.title.getD "Unknown", s, m.vote_average)]
    else acc) []
  pySlice (sortDescBy
    (fun a b => a.2.1 > b.2.1 || (a.2.1 = b.2.1 && a.2.2 > b.2.2)) scored) 0 n

/-- Result record of `analyze_movie_sentiment` (app layer). -/
structure SentimentResult where
  overview_sentiment : ℚ
  overview_subjectivity : ℚ
  review_sentiments : List ℚ
  avg_review_sentiment : ℚ
  overall_sentiment : ℚ
  sentiment_label : String
deriving DecidableEq, Repr

/-- `analyze_movie_sentiment` (app layer): the per-item Sentiment Scorer.
`overall` is the overview polarity alone when no review was scored, else
`0.3 · overview + 0.7 · mean(review polarities)`. -/
def analyze_movie_sentiment (pol subj : String → ℚ) (m : Movie) :
    SentimentResult :=
  let overview := m.overview.getD ""
  let os : ℚ := if overview ≠ "" then pol overview else 0
  let osub : ℚ := if overview ≠ "" then subj overview else 0
  let rs := reviewPolarities pol m
  let avg : ℚ := if rs ≠ [] then rs.sum / (rs.length : ℚ) else 0
  let overall : ℚ := if rs ≠ [] then os * (3/10) + avg * (7/10) else os
  let label :=
    if overall > 3/10 then "Very Positive"
    else if overall > 1/10 then "Positive"
    else if overall > -(1/10) then "Neutral"
    else if overall > -(3/10) then "Negative"
    else "Very Negative"
  ⟨os, osub, rs, avg, overall, label⟩

/-! ## Collaborative Estimator (`collaborative_filtering_simple`) -/

/-- Keys-with-rating-at-least-4 extraction (`liked_movies`). -/
def likedTitles (user_ratings : List (String × ℚ)) : List String :=
  (user_ratings.filter (fun p => p.2 ≥ 4)).map (fun p => p.1)

/-- Does the ratings dict have this title as a key (`title in user_ratings`)? -/
def urHasKey (user_ratings : List (String × ℚ)) (t : String) : Bool :=
  user_ratings.any (fun p => p.1 = t)

/-- The flattened `(title, score)` contributions of the nested loop in
`collaborative_filtering_simple`: for each liked title, each similarity hit
whose id resolves to a corpus movie with a non-empty title not already rated. -/
def collabContributions (e : Engine) (user_ratings : List (String × ℚ))
    (all_movies : List Movie) (n : Int) : List (String × ℚ) :=
  (likedTitles user_ratings).foldr (fun lt acc =>
    ((content_based_recommendations e lt n).filterMap (fun pr =>
      match pr.1 with
      | none => none
      | some mid =>
          match all_movies.find? (fun m => m.id = some mid) with
          | none => none
          | some md =>
              match md.title with
              | none => none
              | some ttl =>
                  if ttl ≠ "" && !urHasKey user_ratings ttl
                  then some (ttl, pr.2) else none)) ++ acc) []

/-- `collaborative_filtering_simple`: max-accumulate the contributions into a
dict, stable-sort its items descending by score, slice `[:n]`. -/
def collaborative_filtering_simple (e : Engine)
    (user_ratings : List (String × ℚ)) (all_movies : List Movie) (n : Int) :
    List (String × ℚ) :=
  if user_ratings = [] then []
  else if likedTitles user_ratings = [] then []
  else
    let dict := (collabContributions e user_ratings all_movies n).foldl
      (fun acc c => upsertMax acc c.1 c.2) []
    pySlice (sortDescBy (fun a b => a.2 > b.2) dict) 0 n

/-! ## Hybrid Combiner -/

/-- Modelled from the spec: the body of `hybrid_recommendations` is absent
from the repository sources (`recommendation_engine.py` breaks off right
after the method's signature and its first comment line), so this follows
§4.7 of the specification word for word.  A score accumulator keyed by title
receives `0.4 ·` each of the Similarity Engine's top `2n` scores when a seed
title is given (ids resolved to titles against the caller's corpus, as the
collaborative path does), `0.3 ·` each of the Collaborative Estimator's top
`2n` scores when user ratings are given, and `0.3 ·` the sentiment `overall`
of each entry of the positive-sentiment ranking (`min_sentiment = 0.2`, top
`2n`) **only** for titles already present in the accumulator; the accumulator
is then stable-sorted descending by score and the top `n` returned. -/
def hybrid_recommendations (pol : String → ℚ) (e : Engine)
    (movie_title : Option String) (user_ratings : Option (List (String × ℚ)))
    (all_movies : List Movie) (n : Int) : List (String × ℚ) :=
  let acc0 : List (String × ℚ) := []
  let acc1 :=
    match movie_title with
    | none => acc0
    | some t =>
        (content_based_recommendations e t (2 * n)).foldl (fun a pr =>
          match pr.1 with
          | none => a
          | some mid =>
              match all_movies.find? (fun m => m.id = some mid) with
              | none => a
              | some md =>
                  match md.title with
                  | none => a
                  | some ttl =>
                      if ttl ≠ "" then upsertAdd a ttl ((2/5) * pr.2) else a)
          acc0
  let acc2 :=
    match user_ratings with
    | none => acc1
    | some ur =>
        (collaborative_filtering_simple e ur all_movies (2 * n)).foldl
          (fun a q => upsertAdd a q.1 ((3/10) * q.2)) acc1
  let sents := sentiment_based_recommendations pol all_movies (1/5) (2 * n)
  let acc3 := sents.foldl (fun a tr =>
    if a.any (fun p => p.1 = tr.1) then upsertAdd a tr.1 ((3/10) * tr.2.1)
    else a) acc2
  pySlice (sortDescBy (fun a b => a.2 > b.2) acc3) 0 n

/-! ## Basic slicing lemmas -/

theorem pySlice_self {α : Type} (l : List α) (a : Int) : pySlice l a a = [] := by
  unfold pySlice
  simp

theorem pySlice_one_zero {α : Type} (l : List α) : pySlice l 1 0 = [] := by
  unfold pySlice pyIdx
  simp

theorem pySlice_nil {α : Type} (a b : Int) : pySlice ([] : List α) a b = [] := by
  unfold pySlice
  simp

/-! ## C9: preparing twice with the same corpus is idempotent -/

theorem prepare_data_idem (e : Engine) (movies : List Movie) :
    prepare_data (prepare_data e movies) movies = prepare_data e movies := by
  unfold prepare_data
  by_cases h : movies = [] <;> simp [h]

/-- C9: calling `prepare(corpus)` twice in a row with the same corpus and then
`recommend_by_title(seed, n)` yields the same ranked list as preparing once
and running the same query. -/
theorem C9_prepare_twice_same_ranking (e : Engine) (movies : List Movie)
    (seed : String) (n : Int) :
    content_based_recommendations (prepare_data (prepare_data e movies) movies) seed n
      = content_based_recommendations (prepare_data e movies) seed n := by
  rw [prepare_data_idem]

/-! ## C2: uninitialized engine and empty-corpus prepare -/

/-- C2 (amended): a `recommend_by_title` call on a never-prepared engine
returns the empty list, and `prepare` on an empty corpus is a no-op that
keeps the previous state (so queries after it behave exactly as before the
call — in particular a non-empty index prepared earlier remains visible,
which is what the original claim denies). -/
theorem C2_uninitialized_empty_and_prepare_empty_noop :
    (∀ (t : String) (n : Int), content_based_recommendations engine0 t n = [])
    ∧ ∀ e : Engine, prepare_data e [] = e := by
  constructor
  · intro t n
    rfl
  · intro e
    rfl

/-- C2 (counterexample): after `prepare` on a two-movie corpus followed by
`prepare` on the empty corpus, `recommend_by_title` still answers from the
stale two-movie index — the claim requires the empty list here. -/
theorem C2_stale_index_after_empty_prepare :
    content_based_recommendations
        (prepare_data
          (prepare_data engine0
            [{ id := some 1, title := some "aa" }, { id := some 2, title := some "bb" }])
          [])
        "aa" 1
      = [(some 2, 0)] := by
  with_unfolding_all decide

/-! ## C3: the seed item is returned on a similarity-1 tie -/

/-- C3: on a corpus whose second movie has exactly the same composed features
as the seed (cosine similarity 1 tie), `recommend_by_title` returns the seed
item itself — `argsort()[::-1][1:n+1]` drops the tied duplicate instead of
the seed, contradicting the source's own comment ("excluding the input
movie") and the claim. -/
theorem C3_seed_returned_on_tie :
    content_based_recommendations
        (prepare_data engine0
          [{ id := some 1, title := some "Same" }, { id := some 2, title := some "Same" }])
        "Same" 1
      = [(some 1, 1)] := by
  with_unfolding_all decide

/-! ## C6: non-positive n -/

theorem contentRank_nonpos (df : List Movie) (mat : List (List ℚ)) (idx : Nat) :
    contentRank df mat idx 0 = [] ∧ contentRank df mat idx (-1) = [] := by
  unfold contentRank
  constructor
  · norm_num [pySlice_self]
  · norm_num [pySlice_one_zero]

/-- C6 (amended): `recommend_by_title` returns the empty list for `n = 0` and
`n = -1`, and the keyword fallback returns the empty list for `n = 0`; more
negative `n` is interpreted by Python slice semantics and need not give an
empty result (see the counterexample). -/
theorem C6_zero_n_empty :
    ∀ (e : Engine) (t : String) (movies : List Movie) (q : String),
      content_based_recommendations e t 0 = []
      ∧ content_based_recommendations e t (-1) = []
      ∧ fuzzy_content_recommendations q movies 0 = [] := by
  intro e t movies q
  refine ⟨?_, ?_, ?_⟩
  · unfold content_based_recommendations
    split
    · split
      · rfl
      · exact (contentRank_nonpos ..).1
    · rfl
  · unfold content_based_recommendations
    split
    · split
      · rfl
      · exact (contentRank_nonpos ..).2
    · rfl
  · unfold fuzzy_content_recommendations
    split
    · rfl
    · rw [pySlice_self]

/-- C6 (counterexample): with `n = -2` on a three-movie corpus,
`recommend_by_title` returns a non-empty list (`[1:n+1]` becomes the Python
slice `[1:-1]`, the middle of the ranking), where the claim requires `[]`. -/
theorem C6_negative_n_nonempty :
    content_based_recommendations
        (prepare_data engine0
          [{ id := some 1, title := some "aa" }, { id := some 2, title := some "bb" },
            { id := some 3, title := some "cc" }])
        "aa" (-2)
      = [(some 3, 0)] := by
  with_unfolding_all decide

/-! ## C4: the overall sentiment formula -/

/-- C4: the Sentiment Scorer's `overall` equals the overview polarity exactly
when the item has no reviews, and equals
`0.3 * overview_polarity + 0.7 * mean(review_polarities)` when at least one
review was scored (at most the first 5 reviews, each truncated to its first
1000 characters — encoded in `reviewPolarities`). -/
theorem C4_overall_sentiment_formula :
    ∀ (pol subj : String → ℚ) (m : Movie),
      (m.reviews = [] →
        (analyze_movie_sentiment pol subj m).overall_sentiment
          = (analyze_movie_sentiment pol subj m).overview_sentiment)
      ∧ (reviewPolarities pol m ≠ [] →
        (analyze_movie_sentiment pol subj m).overall_sentiment
          = (3/10) * (analyze_movie_sentiment pol subj m).overview_sentiment
            + (7/10) * listMean (reviewPolarities pol m)) := by
  intro pol subj m
  constructor
  · intro h
    unfold analyze_movie_sentiment reviewPolarities
    simp [h]
  · intro h
    unfold analyze_movie_sentiment listMean
    simp [h]
    ring_nf

/-- C4 witness: a movie with one scored review, and one with no reviews. -/
theorem C4_overall_sentiment_formula_witness :
    (reviewPolarities (fun s => if s = "great" then 1 else 0)
        { overview := some "meh", reviews := [⟨"great"⟩] } ≠ []
      ∧ (analyze_movie_sentiment (fun s => if s = "great" then 1 else 0)
            (fun _ => 0) { overview := some "meh", reviews := [⟨"great"⟩] }).overall_sentiment
          = (3/10) * (analyze_movie_sentiment (fun s => if s = "great" then 1 else 0)
            (fun _ => 0) { overview := some "meh", reviews := [⟨"great"⟩] }).overview_sentiment
            + (7/10) * listMean (reviewPolarities (fun s => if s = "great" then 1 else 0)
                { overview := some "meh", reviews := [⟨"great"⟩] }))
    ∧ (({ overview := some "meh" } : Movie).reviews = []
      ∧ (analyze_movie_sentiment (fun s => if s = "great" then 1 else 0)
            (fun _ => 0) { overview := some "meh" }).overall_sentiment
          = (analyze_movie_sentiment (fun s => if s = "great" then 1 else 0)
            (fun _ => 0) { overview := some "meh" }).overview_sentiment) := by
  constructor
  · exact ⟨by with_unfolding_all decide,
      (C4_overall_sentiment_formula (fun s => if s = "great" then 1 else 0) (fun _ => 0)
        { overview := some "meh", reviews := [⟨"great"⟩] }).2 (by with_unfolding_all decide)⟩
  · exact ⟨rfl,
      (C4_overall_sentiment_formula (fun s => if s = "great" then 1 else 0) (fun _ => 0)
        { overview := some "meh" }).1 rfl⟩

/-! ## C8: exact-title resolution -/

theorem findBestAux_exact_hit :
    ∀ (df : List Movie) (i : Nat) (m : Movie) (t : String) (off : Nat) (b : Int) (s : ℚ),
      df.get? i = some m → m.title = some t → t ≠ "" →
      (∀ k, k < i → ∀ mk : Movie, df.get? k = some mk → ∀ tk, mk.title = some tk →
        tk ≠ "" → normalize_title tk ≠ normalize_title t) →
      findBestAux (normalize_title t) df off b s = (((off + i : Nat) : Int), 1) := by
  intro df
  induction df with
  | nil => intro i m t off b s h1; simp at h1
  | cons m' rest ih =>
      intro i m t off b s h1 h2 h3 h5
      cases i with
      | zero =>
          simp at h1
          subst h1
          unfold findBestAux
          rw [h2]
          simp [h3]
      | succ k =>
          have h1' : rest.get? k = some m := by simpa using h1
          have h5' : ∀ j, j < k → ∀ mk : Movie, rest.get? j = some mk → ∀ tk,
              mk.title = some tk → tk ≠ "" → normalize_title tk ≠ normalize_title t := by
            intro j hj mk hmk tk htk htne
            exact h5 (j + 1) (by omega) mk (by simpa using hmk) tk htk htne
          have step : ∀ b' s', findBestAux (normalize_title t) rest (off + 1) b' s'
              = (((off + 1 + k : Nat) : Int), 1) := fun b' s' =>
            ih k m t (off + 1) b' s' h1' h2 h3 h5'
          have hoff : ((off + 1 + k : Nat) : Int) = ((off + (k + 1) : Nat) : Int) := by
            omega
          unfold findBestAux
          cases htitle : m'.title with
          | none =>
              simp only [htitle, Option.getD_none, reduceIte]
              rw [step, hoff]
          | some tk =>
              simp only [htitle, Option.getD_some]
              by_cases hke : tk = ""
              · simp only [if_pos hke]
                rw [step, hoff]
              · simp only [if_neg hke]
                have hne : ¬ normalize_title t = normalize_title tk := by
                  have := h5 0 (by omega) m' (by simp) tk htitle hke
                  exact fun hh => this hh.symm
                simp only [if_neg hne]
                split
                · split
                  · rw [step, hoff]
                  · rw [step, hoff]
                · split
                  · rw [step, hoff]
                  · rw [step, hoff]

/-- C8 (amended): resolving any letter-case variant of the exact, non-empty
title of corpus item `i` yields confidence exactly 1.0 and the *first* corpus
item whose normalized title equals that title's normalization — hence item
`i` itself whenever no earlier item's title normalizes to the same string
(the original claim fails when an earlier item collides, see the
counterexample). -/
theorem C8_exact_title_resolution (df : List Movie) (q : String) (i : Nat)
    (m : Movie) (t : String)
    (h1 : df.get? i = some m) (h2 : m.title = some t) (h3 : t ≠ "")
    (h4 : lowerStr q = lowerStr t)
    (h5 : ∀ k, k < i → ∀ mk : Movie, df.get? k = some mk → ∀ tk, mk.title = some tk →
      tk ≠ "" → normalize_title tk ≠ normalize_title t) :
    find_best_match df q = (((i : Nat) : Int), 1) := by
  have hq : normalize_title q = normalize_title t := by
    unfold normalize_title
    rw [h4]
  unfold find_best_match
  rw [hq]
  simpa using findBestAux_exact_hit df i m t 0 (-1) 0 h1 h2 h3 h5

/-- C8 witness: a one-movie corpus, queried with the upper-cased title. -/
theorem C8_exact_title_resolution_witness :
    ([{ title := some "Alpha" }] : List Movie).get? 0 = some { title := some "Alpha" }
    ∧ lowerStr "ALPHA" = lowerStr "Alpha"
    ∧ find_best_match [{ title := some "Alpha" }] "ALPHA" = (0, 1) := by
  refine ⟨rfl, by with_unfolding_all decide, ?_⟩
  exact C8_exact_title_resolution [{ title := some "Alpha" }] "ALPHA" 0
    { title := some "Alpha" } "Alpha" rfl rfl (by with_unfolding_all decide)
    (by with_unfolding_all decide) (by intro k hk; omega)

/-- C8 (counterexample): two distinct movies whose titles agree up to case;
resolving the exact title "UP" of the *second* item (index 1) yields index 0,
not index 1 — the resolver returns the first normalized-title collision, so
the exact title of an item need not resolve to that item. -/
theorem C8_duplicate_title_resolves_to_first :
    find_best_match [{ title := some "up" }, { title := some "UP" }] "UP" = (0, 1) := by
  with_unfolding_all decide

/-! ## C10: queries that normalize to the empty string -/

theorem isWhitespace_eq_false_of_isAlphanum (c : Char) (h : c.isAlphanum = true) :
    c.isWhitespace = false := by
  unfold Char.isWhitespace
  by_contra hw
  simp only [Bool.not_eq_false, Bool.or_eq_true, decide_eq_true_eq] at hw
  rcases hw with ((h1 | h1) | h1) | h1 <;> subst h1 <;> exact absurd h (by decide)

theorem isAlphanum_toLower (c : Char) (h : c.isAlphanum = true) :
    (Char.toLower c).isAlphanum = true := by
  have hdef : Char.toLower c
      = if c.toNat ≥ 65 ∧ c.toNat ≤ 90 then Char.ofNat (c.toNat + 32) else c := rfl
  rw [hdef]
  split
  · rename_i hcond
    obtain ⟨h1, h2⟩ := hcond
    generalize c.toNat = n at h1 h2
    interval_cases n <;> decide
  · exact h

theorem splitWsAux_ne_nil : ∀ (l cur : List Char),
    (cur ≠ [] ∨ ∃ c ∈ l, c.isWhitespace = false) → splitWsAux l cur ≠ [] := by
  intro l
  induction l with
  | nil =>
      intro cur h
      unfold splitWsAux
      have hc : cur ≠ [] := by
        rcases h with h | ⟨c, hc, _⟩
        · exact h
        · simp at hc
      simp [hc]
  | cons c rest ih =>
      intro cur h
      unfold splitWsAux
      split
      · rename_i hws
        split
        · rename_i hcur
          subst hcur
          apply ih
          right
          rcases h with h | ⟨c', hc', hnw⟩
          · exact absurd rfl h
          · rcases List.mem_cons.mp hc' with h' | h'
            · subst h'
              rw [hws] at hnw
              simp at hnw
            · exact ⟨c', h', hnw⟩
        · simp
      · apply ih
        left
        simp

theorem splitWsAux_no_empty_word : ∀ (l cur : List Char),
    ∀ w ∈ splitWsAux l cur, w ≠ [] := by
  intro l
  induction l with
  | nil =>
      intro cur w hw
      unfold splitWsAux at hw
      split at hw
      · simp at hw
      · rename_i hcur
        simp at hw
        subst hw
        simp [hcur]
  | cons c rest ih =>
      intro cur w hw
      unfold splitWsAux at hw
      split at hw
      · split at hw
        · exact ih [] w hw
        · rename_i hcur
          rcases List.mem_cons.mp hw with h | h
          · subst h
            simp [hcur]
          · exact ih [] w h
      · exact ih (c :: cur) w hw

theorem intercalateChars_ne_nil (ws : List (List Char)) (h1 : ws ≠ [])
    (h2 : ∀ w ∈ ws, w ≠ []) : intercalateChars ws ≠ [] := by
  match ws with
  | [] => exact absurd rfl h1
  | [w] => exact h2 w (by simp)
  | w :: r :: rs =>
      unfold intercalateChars
      simp

theorem normalize_title_ne_empty (t : String) (h : ∃ c ∈ t.data, c.isAlphanum = true) :
    normalize_title t ≠ "" := by
  obtain ⟨c, hc, halnum⟩ := h
  unfold normalize_title
  intro hEq
  have hl : intercalateChars (splitWords ((lowerStr t).data.filter
      (fun c => c.isAlphanum || c = '_' || c.isWhitespace))) = [] := by
    have := congrArg String.data hEq
    simpa using this
  set cleaned := (lowerStr t).data.filter
      (fun c => c.isAlphanum || c = '_' || c.isWhitespace) with hcleaned
  have hmem : Char.toLower c ∈ cleaned := by
    rw [hcleaned]
    apply List.mem_filter.mpr
    constructor
    · show Char.toLower c ∈ (lowerStr t).data
      have hdata : (lowerStr t).data = t.data.map Char.toLower := rfl
      rw [hdata]
      exact List.mem_map.mpr ⟨c, hc, rfl⟩
    · simp [isAlphanum_toLower c halnum]
  have hsplit : splitWords cleaned ≠ [] := by
    apply splitWsAux_ne_nil
    right
    exact ⟨Char.toLower c, hmem,
      isWhitespace_eq_false_of_isAlphanum _ (isAlphanum_toLower c halnum)⟩
  exact intercalateChars_ne_nil _ hsplit (splitWsAux_no_empty_word cleaned []) hl

theorem isSubstr_empty_left (b : String) : isSubstr "" b = true := by
  unfold isSubstr
  have key : ∀ l : List Char, l.tails.any (fun t => ([] : List Char).isPrefixOf t) = true := by
    intro l
    cases l with
    | nil => rfl
    | cons c cs => simp [List.tails_cons, List.isPrefixOf]
  exact key b.data

/-- Unfolding equation for `findBestAux` on a cons cell. -/
theorem findBestAux_cons (nq : String) (m : Movie) (rest : List Movie) (i : Nat)
    (b : Int) (s : ℚ) :
    findBestAux nq (m :: rest) i b s =
      (if m.title.getD "" = "" then findBestAux nq rest (i + 1) b s
       else if nq = normalize_title (m.title.getD "") then ((i : Int), 1)
       else if (isSubstr nq (normalize_title (m.title.getD ""))
            || isSubstr (normalize_title (m.title.getD "")) nq) then
         (if (9 : ℚ)/10 > s then findBestAux nq rest (i + 1) (i : Int) ((9 : ℚ)/10)
          else findBestAux nq rest (i + 1) b s)
       else if ratioQ nq (normalize_title (m.title.getD "")) > s then
         findBestAux nq rest (i + 1) (i : Int)
           (ratioQ nq (normalize_title (m.title.getD "")))
       else findBestAux nq rest (i + 1) b s) := rfl

theorem findBestAux_empty_query : ∀ (df : List Movie) (off : Nat) (b : Int),
    findBestAux "" df off b (9/10) = (b, 9/10)
    ∨ ∃ k, off ≤ k ∧ k < off + df.length ∧
        findBestAux "" df off b (9/10) = ((k : Int), 1) := by
  intro df
  induction df with
  | nil => intro off b; left; rfl
  | cons m rest ih =>
      intro off b
      rw [findBestAux_cons]
      have bump : findBestAux "" rest (off + 1) b (9/10) = (b, 9/10)
          ∨ ∃ k, off ≤ k ∧ k < off + (m :: rest).length ∧
              findBestAux "" rest (off + 1) b (9/10) = ((k : Int), 1) := by
        rcases ih (off + 1) b with h | ⟨k, hk1, hk2, hk3⟩
        · left; exact h
        · right; exact ⟨k, by omega, by simp only [List.length_cons]; omega, hk3⟩
      by_cases hmt : m.title.getD "" = ""
      · rw [if_pos hmt]; exact bump
      · rw [if_neg hmt]
        by_cases hnm : ("" : String) = normalize_title (m.title.getD "")
        · rw [if_pos hnm]
          right
          exact ⟨off, le_refl off, by simp only [List.length_cons]; omega, rfl⟩
        · rw [if_neg hnm]
          rw [if_pos (show (isSubstr "" (normalize_title (m.title.getD ""))
              || isSubstr (normalize_title (m.title.getD "")) "") = true by
            simp [isSubstr_empty_left])]
          rw [if_neg (lt_irrefl ((9 : ℚ)/10))]
          exact bump

theorem findBestAux_all_normalized_nonempty : ∀ (df : List Movie) (off : Nat) (b : Int),
    (∀ m ∈ df, ∀ tk, m.title = some tk → tk ≠ "" → normalize_title tk ≠ "") →
    findBestAux "" df off b (9/10) = (b, 9/10) := by
  intro df
  induction df with
  | nil => intro off b _; rfl
  | cons m rest ih =>
      intro off b hall
      have ihr := ih (off + 1) b (fun m' hm' => hall m' (List.mem_cons_of_mem _ hm'))
      rw [findBestAux_cons]
      by_cases hmt : m.title.getD "" = ""
      · rw [if_pos hmt]; exact ihr
      · rw [if_neg hmt]
        have htk : m.title = some (m.title.getD "") := by
          cases h : m.title with
          | none => rw [h] at hmt; simp at hmt
          | some v => rfl
        have hnm : normalize_title (m.title.getD "") ≠ "" := hall m (by simp) _ htk hmt
        rw [if_neg (fun hh => hnm hh.symm)]
        rw [if_pos (show (isSubstr "" (normalize_title (m.title.getD ""))
            || isSubstr (normalize_title (m.title.getD "")) "") = true by
          simp [isSubstr_empty_left])]
        rw [if_neg (lt_irrefl ((9 : ℚ)/10))]
        exact ihr

/-- C10 (amended): on a non-empty corpus whose first item's title contains an
alphanumeric character, a query normalizing to the empty string always
resolves with confidence at least 0.9 to a real corpus index (never "not
found", since 0.9 exceeds the 0.5 threshold); when no corpus title
normalizes to the empty string the result is exactly the first item with
confidence 0.9 — but an item whose title normalizes to "" is an exact
normalized match and is returned with confidence 1.0 instead (see the
counterexample, which refutes "confidence 0.9" as stated). -/
theorem C10_empty_query_resolution (df : List Movie) (q : String) (m0 : Movie)
    (t0 : String) (h0 : df.get? 0 = some m0) (ht : m0.title = some t0)
    (halnum : ∃ c ∈ t0.data, c.isAlphanum = true)
    (hq : normalize_title q = "") :
    ((9:ℚ)/10 ≤ (find_best_match df q).2
      ∧ 0 ≤ (find_best_match df q).1
      ∧ (find_best_match df q).1 < (df.length : Int))
    ∧ ((∀ m ∈ df, ∀ tk, m.title = some tk → tk ≠ "" → normalize_title tk ≠ "") →
        find_best_match df q = (0, 9/10)) := by
  cases df with
  | nil => simp at h0
  | cons m0' rest =>
  have hm0 : m0 = m0' := by
    have h0' : m0' = m0 := by simpa using h0
    exact h0'.symm
  subst hm0
  have ht0ne : t0 ≠ "" := by
    obtain ⟨c, hc, _⟩ := halnum
    intro hh
    rw [hh] at hc
    simp at hc
  have hgetd : m0.title.getD "" = t0 := by rw [ht]; rfl
  have hnorm0 : normalize_title t0 ≠ "" := normalize_title_ne_empty t0 halnum
  have hstep : find_best_match (m0 :: rest) q = findBestAux "" rest 1 0 (9/10) := by
    unfold find_best_match
    rw [hq, findBestAux_cons, hgetd]
    rw [if_neg ht0ne]
    rw [if_neg (fun hh => hnorm0 hh.symm)]
    rw [if_pos (show (isSubstr "" (normalize_title t0)
        || isSubstr (normalize_title t0) "") = true by simp [isSubstr_empty_left])]
    rw [if_pos (show (9 : ℚ)/10 > 0 by norm_num)]
    norm_num
  constructor
  · rw [hstep]
    rcases findBestAux_empty_query rest 1 0 with h | ⟨k, hk1, hk2, hk3⟩
    · rw [h]
      refine ⟨le_refl _, by norm_num, ?_⟩
      simp only [List.length_cons]
      omega
    · rw [hk3]
      refine ⟨by norm_num, by omega, ?_⟩
      simp only [List.length_cons]
      omega
  · intro hall
    rw [hstep]
    exact findBestAux_all_normalized_nonempty rest 1 0
      (fun m' hm' => hall m' (List.mem_cons_of_mem _ hm'))

/-- C10 witness: a one-movie corpus and an all-punctuation query. -/
theorem C10_empty_query_resolution_witness :
    ([{ title := some "Movie" }] : List Movie).get? 0 = some { title := some "Movie" }
    ∧ (∃ c ∈ "Movie".data, c.isAlphanum = true)
    ∧ normalize_title "???" = ""
    ∧ (((9:ℚ)/10 ≤ (find_best_match [{ title := some "Movie" }] "???").2
        ∧ 0 ≤ (find_best_match [{ title := some "Movie" }] "???").1
        ∧ (find_best_match [{ title := some "Movie" }] "???").1
            < (([{ title := some "Movie" }] : List Movie).length : Int))
      ∧ ((∀ m ∈ ([{ title := some "Movie" }] : List Movie), ∀ tk, m.title = some tk →
            tk ≠ "" → normalize_title tk ≠ "") →
          find_best_match [{ title := some "Movie" }] "???" = (0, 9/10))) := by
  refine ⟨rfl, by with_unfolding_all decide, by with_unfolding_all decide, ?_⟩
  exact C10_empty_query_resolution [{ title := some "Movie" }] "???"
    { title := some "Movie" } "Movie" rfl rfl (by with_unfolding_all decide)
    (by with_unfolding_all decide)

/-- C10 (counterexample): the first item has an alphanumeric title and the
query normalizes to the empty string, yet the resolver reports confidence
1.0, not 0.9: the second item's title `"!!!"` also normalizes to `""`, which
is an exact normalized match. -/
theorem C10_confidence_not_always_point_nine :
    find_best_match [{ title := some "A" }, { title := some "!!!" }] "..." = (1, 1) := by
  with_unfolding_all decide

/-! ## C5: ties are listed in reverse corpus order -/

/-- The strict order by which the modelled stable ascending argsort arranges
indices: by value, ties by original position. -/
def ordIdx (xs : List ℚ) (a b : Nat) : Prop :=
  xs.getD a 0 < xs.getD b 0 ∨ (xs.getD a 0 = xs.getD b 0 ∧ a < b)

theorem mem_insertAsc (xs : List ℚ) (i : Nat) :
    ∀ (l : List Nat) (a : Nat), a ∈ insertAsc xs i l ↔ a = i ∨ a ∈ l := by
  intro l
  induction l with
  | nil => intro a; unfold insertAsc; simp
  | cons j rest ih =>
      intro a
      unfold insertAsc
      split
      · simp
      · simp only [List.mem_cons, ih]
        tauto

theorem pairwise_insertAsc (xs : List ℚ) (i : Nat) :
    ∀ (l : List Nat), l.Pairwise (ordIdx xs) → (∀ a ∈ l, a < i) →
      (insertAsc xs i l).Pairwise (ordIdx xs) := by
  intro l
  induction l with
  | nil => intro _ _; simp [insertAsc, List.pairwise_cons]
  | cons j rest ih =>
      intro hp hbound
      unfold insertAsc
      rcases List.pairwise_cons.mp hp with ⟨hjall, hrest⟩
      split
      · rename_i hlt
        apply List.pairwise_cons.mpr
        refine ⟨?_, hp⟩
        intro a ha
        rcases List.mem_cons.mp ha with h | h
        · subst h
          exact Or.inl hlt
        · rcases hjall a h with h' | ⟨heq, _⟩
          · exact Or.inl (lt_trans hlt h')
          · exact Or.inl (heq ▸ hlt)
      · rename_i hnlt
        apply List.pairwise_cons.mpr
        constructor
        · intro a ha
          rcases (mem_insertAsc xs i rest a).mp ha with h | h
          · subst h
            rcases lt_or_eq_of_le (le_of_not_lt hnlt) with h' | h'
            · exact Or.inl h'
            · exact Or.inr ⟨h', hbound j (by simp)⟩
          · exact hjall a h
        · exact ih hrest (fun a ha => hbound a (List.mem_cons_of_mem _ ha))

theorem foldl_insertAsc_pairwise (xs : List ℚ) :
    ∀ (l : List Nat) (acc : List Nat),
      acc.Pairwise (ordIdx xs) → (∀ a ∈ acc, ∀ b ∈ l, a < b) →
      l.Pairwise (· < ·) →
      (l.foldl (fun acc i => insertAsc xs i acc) acc).Pairwise (ordIdx xs) := by
  intro l
  induction l with
  | nil => intro acc h _ _; exact h
  | cons i rest ih =>
      intro acc hacc hcross hl
      rcases List.pairwise_cons.mp hl with ⟨hiall, hrest⟩
      simp only [List.foldl_cons]
      apply ih
      · exact pairwise_insertAsc xs i acc hacc (fun a ha => hcross a ha i (by simp))
      · intro a ha b hb
        rcases (mem_insertAsc xs i acc a).mp ha with h | h
        · subst h
          exact hiall b hb
        · exact hcross a h b (List.mem_cons_of_mem _ hb)
      · exact hrest

theorem argsortAsc_pairwise (xs : List ℚ) :
    (argsortAsc xs).Pairwise (ordIdx xs) := by
  unfold argsortAsc
  exact foldl_insertAsc_pairwise xs (List.range xs.length) []
    (by simp) (by simp) (List.pairwise_lt_range xs.length)

/-- C5 (amended): among two items with equal similarity to the seed, the
descending index order used by `recommend_by_title` (`argsortDesc`, the
reversal of a stable ascending argsort) places the item *later* in the corpus
strictly first — ties come out in reverse corpus order, not corpus order. -/
theorem C5_equal_similarity_reverse_order (sims : List ℚ) (i j : Nat)
    (pi pj : Fin (argsortDesc sims).length)
    (hij : i < j) (hsim : sims.getD i 0 = sims.getD j 0)
    (hpi : (argsortDesc sims).get pi = j) (hpj : (argsortDesc sims).get pj = i) :
    pi < pj := by
  have hdesc : (argsortDesc sims).Pairwise (fun a b => ordIdx sims b a) := by
    unfold argsortDesc
    exact List.pairwise_reverse.mpr (argsortAsc_pairwise sims)
  rcases lt_trichotomy pi pj with h | h | h
  · exact h
  · exfalso
    rw [h, hpj] at hpi
    omega
  · exfalso
    have := List.pairwise_iff_get.mp hdesc pj pi h
    rw [hpi, hpj] at this
    rcases this with h' | ⟨heq, hlt⟩
    · rw [hsim] at h'
      exact lt_irrefl _ h'
    · omega

/-- C5 witness for the amended theorem: similarities `[1, 0, 0]`; the tied
indices 1 and 2 appear as positions 1 and 2 of `argsortDesc = [0, 2, 1]`,
i.e. index 2 (later in the corpus) strictly first. -/
theorem C5_equal_similarity_reverse_order_witness :
    (1 : Nat) < 2
    ∧ ([(1 : ℚ), 0, 0].getD 1 0 = [(1 : ℚ), 0, 0].getD 2 0)
    ∧ (argsortDesc [(1 : ℚ), 0, 0]).get
        ⟨1, by with_unfolding_all decide⟩ = 2
    ∧ (argsortDesc [(1 : ℚ), 0, 0]).get
        ⟨2, by with_unfolding_all decide⟩ = 1
    ∧ (⟨1, by with_unfolding_all decide⟩ : Fin (argsortDesc [(1 : ℚ), 0, 0]).length)
        < ⟨2, by with_unfolding_all decide⟩ := by
  refine ⟨by decide, by with_unfolding_all decide, by with_unfolding_all decide,
    by with_unfolding_all decide, ?_⟩
  exact C5_equal_similarity_reverse_order [(1 : ℚ), 0, 0] 1 2
    ⟨1, by with_unfolding_all decide⟩ ⟨2, by with_unfolding_all decide⟩
    (by decide) (by with_unfolding_all decide)
    (by with_unfolding_all decide) (by with_unfolding_all decide)

/-- C5 (counterexample): movies 2 and 3 have identical composed features,
hence equal similarity to the seed, yet `recommend_by_title` lists id 3
before id 2 — reverse corpus order, where the claim requires corpus order
`[(some 2, _), (some 3, _)]`. -/
theorem C5_ties_listed_in_reverse_corpus_order :
    content_based_recommendations
        (prepare_data engine0
          [{ id := some 1, title := some "aa" }, { id := some 2, title := some "bb" },
            { id := some 3, title := some "bb" }])
        "aa" 2
      = [(some 3, 0), (some 2, 0)] := by
  with_unfolding_all decide

/-! ## C7: collaborative scores are maxima over contributions -/

/-- Association-list lookup (Python `dict[key]`). -/
def assocLookup : List (String × ℚ) → String → Option ℚ
  | [], _ => none
  | (t', s') :: rest, t => if t' = t then some s' else assocLookup rest t

/-- The scores a given title receives among a contribution list. -/
def scoresFor (C : List (String × ℚ)) (t : String) : List ℚ :=
  (C.filter (fun c => c.1 = t)).map (fun c => c.2)

/-- Maximum-accumulation over an optional running value. -/
def foldMaxO (o : Option ℚ) (l : List ℚ) : Option ℚ :=
  l.foldl (fun a x => some (match a with | some v => max v x | none => x)) o

theorem assocLookup_upsertMax :
    ∀ (acc : List (String × ℚ)) (t' : String) (s : ℚ) (t : String),
      assocLookup (upsertMax acc t' s) t
        = if t' = t then
            some (match assocLookup acc t with
              | some o => max o s
              | none => s)
          else assocLookup acc t := by
  intro acc
  induction acc with
  | nil =>
      intro t' s t
      by_cases h : t' = t
      · simp [upsertMax, assocLookup, h]
      · simp [upsertMax, assocLookup, h]
  | cons p rest ih =>
      intro t' s t
      obtain ⟨a, b⟩ := p
      unfold upsertMax
      by_cases h1 : a = t'
      · rw [if_pos h1]
        subst h1
        unfold assocLookup
        by_cases h2 : a = t
        · rw [if_pos h2, if_pos h2, if_pos h2]
        · rw [if_neg h2, if_neg h2, if_neg h2]
      · rw [if_neg h1]
        unfold assocLookup
        by_cases h2 : a = t
        · subst h2
          rw [if_pos rfl, if_pos rfl]
          rw [if_neg (fun hh : t' = a => h1 hh.symm)]
        · rw [if_neg h2, if_neg h2, ih]

theorem mem_upsertMax_keys :
    ∀ (acc : List (String × ℚ)) (t : String) (s : ℚ) (q : String × ℚ),
      q ∈ upsertMax acc t s → q.1 = t ∨ q ∈ acc := by
  intro acc
  induction acc with
  | nil =>
      intro t s q hq
      unfold upsertMax at hq
      simp at hq
      subst hq
      exact Or.inl rfl
  | cons p rest ih =>
      intro t s q hq
      obtain ⟨a, b⟩ := p
      unfold upsertMax at hq
      split at hq
      · rename_i h1
        rcases List.mem_cons.mp hq with h | h
        · subst h
          exact Or.inl h1
        · exact Or.inr (List.mem_cons_of_mem _ h)
      · rcases List.mem_cons.mp hq with h | h
        · subst h
          exact Or.inr (by simp)
        · rcases ih t s q h with h' | h'
          · exact Or.inl h'
          · exact Or.inr (List.mem_cons_of_mem _ h')

theorem upsertMax_keys_pairwise (acc : List (String × ℚ)) (t : String) (s : ℚ)
    (h : acc.Pairwise (fun p q : String × ℚ => p.1 ≠ q.1)) :
    (upsertMax acc t s).Pairwise (fun p q : String × ℚ => p.1 ≠ q.1) := by
  induction acc with
  | nil => simp [upsertMax]
  | cons p rest ih =>
      obtain ⟨a, b⟩ := p
      rcases List.pairwise_cons.mp h with ⟨hall, hrest⟩
      unfold upsertMax
      split
      · rename_i h1
        apply List.pairwise_cons.mpr
        exact ⟨hall, hrest⟩
      · rename_i h1
        apply List.pairwise_cons.mpr
        constructor
        · intro q hq
          rcases mem_upsertMax_keys rest t s q hq with h' | h'
          · rw [h']
            exact fun hh => h1 hh
          · exact hall q h'
        · exact ih hrest

theorem mem_iff_assocLookup :
    ∀ (acc : List (String × ℚ)),
      acc.Pairwise (fun p q : String × ℚ => p.1 ≠ q.1) →
      ∀ (t : String) (s : ℚ), ((t, s) ∈ acc ↔ assocLookup acc t = some s) := by
  intro acc
  induction acc with
  | nil => intro _ t s; simp [assocLookup]
  | cons p rest ih =>
      intro h t s
      obtain ⟨a, b⟩ := p
      rcases List.pairwise_cons.mp h with ⟨hall, hrest⟩
      unfold assocLookup
      by_cases h2 : a = t
      · subst h2
        rw [if_pos rfl]
        constructor
        · intro hm
          rcases List.mem_cons.mp hm with h' | h'
          · injection h' with h1 h2
            rw [h2]
          · exact absurd rfl (hall (a, s) h')
        · intro hs
          injection hs with hs
          subst hs
          simp
      · rw [if_neg h2]
        constructor
        · intro hm
          rcases List.mem_cons.mp hm with h' | h'
          · injection h' with h1 _
            exact absurd h1.symm h2
          · exact (ih hrest t s).mp h'
        · intro hs
          exact List.mem_cons_of_mem _ ((ih hrest t s).mpr hs)

theorem assocLookup_foldl_upsertMax :
    ∀ (C : List (String × ℚ)) (acc : List (String × ℚ)) (t : String),
      assocLookup (C.foldl (fun a c => upsertMax a c.1 c.2) acc) t
        = foldMaxO (assocLookup acc t) (scoresFor C t) := by
  intro C
  induction C with
  | nil => intro acc t; rfl
  | cons c rest ih =>
      intro acc t
      rw [List.foldl_cons, ih]
      have hs : scoresFor (c :: rest) t
          = if c.1 = t then c.2 :: scoresFor rest t else scoresFor rest t := by
        unfold scoresFor
        by_cases h : c.1 = t
        · simp [List.filter_cons, h]
        · simp [List.filter_cons, h]
      rw [hs, assocLookup_upsertMax]
      by_cases h : c.1 = t
      · rw [if_pos h, if_pos h]
        rfl
      · rw [if_neg h, if_neg h]

theorem foldMaxO_some_spec :
    ∀ (l : List ℚ) (v s : ℚ),
      foldMaxO (some v) l = some s → (s = v ∨ s ∈ l) ∧ v ≤ s ∧ ∀ x ∈ l, x ≤ s := by
  intro l
  induction l with
  | nil =>
      intro v s h
      injection h with h
      subst h
      exact ⟨Or.inl rfl, le_refl _, by simp⟩
  | cons x rest ih =>
      intro v s h
      have h' : foldMaxO (some (max v x)) rest = some s := h
      rcases ih (max v x) s h' with ⟨hmem, hle, hall⟩
      refine ⟨?_, ?_, ?_⟩
      · rcases hmem with h1 | h1
        · rcases max_choice v x with h2 | h2
          · exact Or.inl (h1.trans h2)
          · exact Or.inr (by rw [h1, h2]; simp)
        · exact Or.inr (List.mem_cons_of_mem _ h1)
      · exact le_trans (le_max_left v x) hle
      · intro y hy
        rcases List.mem_cons.mp hy with h1 | h1
        · subst h1
          exact le_trans (le_max_right v y) hle
        · exact hall y h1

theorem foldMaxO_none_spec (l : List ℚ) (s : ℚ) (h : foldMaxO none l = some s) :
    s ∈ l ∧ ∀ x ∈ l, x ≤ s := by
  cases l with
  | nil => exact absurd h (by simp [foldMaxO])
  | cons x rest =>
      have h' : foldMaxO (some x) rest = some s := h
      rcases foldMaxO_some_spec rest x s h' with ⟨hmem, hle, hall⟩
      constructor
      · rcases hmem with h1 | h1
        · rw [h1]; simp
        · exact List.mem_cons_of_mem _ h1
      · intro y hy
        rcases List.mem_cons.mp hy with h1 | h1
        · subst h1; exact hle
        · exact hall y h1

theorem foldl_upsertMax_keys_pairwise (C : List (String × ℚ)) :
    ∀ acc, acc.Pairwise (fun p q : String × ℚ => p.1 ≠ q.1) →
      (C.foldl (fun a c => upsertMax a c.1 c.2) acc).Pairwise
        (fun p q : String × ℚ => p.1 ≠ q.1) := by
  induction C with
  | nil => intro acc h; exact h
  | cons c rest ih =>
      intro acc h
      rw [List.foldl_cons]
      exact ih _ (upsertMax_keys_pairwise acc c.1 c.2 h)

theorem mem_insertDescBy {α : Type} (gt : α → α → Bool) (x : α) :
    ∀ (l : List α) (a : α), a ∈ insertDescBy gt x l ↔ a = x ∨ a ∈ l := by
  intro l
  induction l with
  | nil => intro a; simp [insertDescBy]
  | cons y rest ih =>
      intro a
      unfold insertDescBy
      split
      · simp
      · simp only [List.mem_cons, ih]
        tauto

theorem mem_foldl_insertDescBy {α : Type} (gt : α → α → Bool) :
    ∀ (l acc : List α) (a : α),
      (a ∈ l.foldl (fun acc x => insertDescBy gt x acc) acc ↔ a ∈ acc ∨ a ∈ l) := by
  intro l
  induction l with
  | nil => intro acc a; simp
  | cons x rest ih =>
      intro acc a
      rw [List.foldl_cons]
      rw [ih]
      rw [mem_insertDescBy]
      simp only [List.mem_cons]
      tauto

theorem mem_sortDescBy {α : Type} (gt : α → α → Bool) (l : List α) (a : α) :
    a ∈ sortDescBy gt l ↔ a ∈ l := by
  unfold sortDescBy
  rw [mem_foldl_insertDescBy]
  simp

theorem mem_of_mem_pySlice {α : Type} (l : List α) (s t : Int) (a : α)
    (h : a ∈ pySlice l s t) : a ∈ l := by
  unfold pySlice at h
  exact List.mem_of_mem_drop (List.mem_of_mem_take h)

theorem mem_foldr_blocks {β : Type} (blocks : β → List (String × ℚ)) :
    ∀ (lts : List β) (acc : List (String × ℚ)) (x : String × ℚ),
      x ∈ lts.foldr (fun lt acc => blocks lt ++ acc) acc →
      (∃ lt ∈ lts, x ∈ blocks lt) ∨ x ∈ acc := by
  intro lts
  induction lts with
  | nil => intro acc x h; exact Or.inr h
  | cons lt rest ih =>
      intro acc x h
      rw [List.foldr_cons] at h
      rcases List.mem_append.mp h with h' | h'
      · exact Or.inl ⟨lt, by simp, h'⟩
      · rcases ih acc x h' with ⟨lt', hlt', hx⟩ | h''
        · exact Or.inl ⟨lt', List.mem_cons_of_mem _ hlt', hx⟩
        · exact Or.inr h''

theorem collabContributions_not_rated (e : Engine) (ur : List (String × ℚ))
    (movies : List Movie) (n : Int) (x : String × ℚ)
    (h : x ∈ collabContributions e ur movies n) : urHasKey ur x.1 = false := by
  unfold collabContributions at h
  rcases mem_foldr_blocks _ (likedTitles ur) [] x h with ⟨lt, _, hx⟩ | h'
  · rcases List.mem_filterMap.mp hx with ⟨pr, _, hfx⟩
    cases hid : pr.1 with
    | none => rw [hid] at hfx; simp at hfx
    | some mid =>
        simp only [hid] at hfx
        cases hfind : movies.find? (fun m => m.id = some mid) with
        | none => simp only [hfind] at hfx; simp at hfx
        | some md =>
            simp only [hfind] at hfx
            cases htl : md.title with
            | none => simp only [htl] at hfx; simp at hfx
            | some ttl =>
                simp only [htl] at hfx
                split at hfx
                · rename_i hguard
                  injection hfx with hfx
                  rw [← hfx]
                  have hguard' : decide (ttl ≠ "") = true ∧ (!urHasKey ur ttl) = true := by
                    simpa using hguard
                  have hnk : urHasKey ur ttl = false := by
                    simpa using hguard'.2
                  exact hnk
                · simp at hfx
  · simp at h'

/-- C7: every `(title, score)` returned by the Collaborative Estimator has a
score equal to the maximum (an attained upper bound, not a sum or average)
of the similarity scores that title received across the Similarity Engine
runs seeded from the user's liked titles, and no returned title is a key of
`user_ratings`. -/
theorem C7_collaborative_max_score (e : Engine) (ur : List (String × ℚ))
    (movies : List Movie) (n : Int) (t : String) (s : ℚ)
    (h : (t, s) ∈ collaborative_filtering_simple e ur movies n) :
    (∀ r : ℚ, (t, r) ∉ ur)
    ∧ s ∈ scoresFor (collabContributions e ur movies n) t
    ∧ ∀ x ∈ scoresFor (collabContributions e ur movies n) t, x ≤ s := by
  unfold collaborative_filtering_simple at h
  split at h
  · simp at h
  · split at h
    · simp at h
    · have hdict : (t, s) ∈ (collabContributions e ur movies n).foldl
          (fun acc c => upsertMax acc c.1 c.2) [] := by
        have h1 := mem_of_mem_pySlice _ _ _ _ h
        exact (mem_sortDescBy _ _ _).mp h1
      have hpair := foldl_upsertMax_keys_pairwise (collabContributions e ur movies n)
        [] (by simp)
      have hlook := (mem_iff_assocLookup _ hpair t s).mp hdict
      rw [assocLookup_foldl_upsertMax] at hlook
      have hspec := foldMaxO_none_spec _ _ hlook
      refine ⟨?_, hspec.1, hspec.2⟩
      have hsc : s ∈ scoresFor (collabContributions e ur movies n) t := hspec.1
      unfold scoresFor at hsc
      rcases List.mem_map.mp hsc with ⟨c, hcf, _⟩
      rcases List.mem_filter.mp hcf with ⟨hcC, hkey⟩
      have hnk := collabContributions_not_rated e ur movies n c hcC
      have hkt : c.1 = t := by simpa using hkey
      rw [hkt] at hnk
      intro r hr
      have : urHasKey ur t = true := by
        unfold urHasKey
        apply List.any_eq_true.mpr
        exact ⟨(t, r), hr, by simp⟩
      rw [this] at hnk
      exact Bool.true_eq_false.mp hnk

/-- C7 witness: user liked "alpha" (5.0); the estimator returns
`[("beta", 0)]`, whose score 0 is the maximum of the contributions for
"beta", and "beta" is not a key of the ratings. -/
theorem C7_collaborative_max_score_witness :
    (("beta", (0 : ℚ)) ∈ collaborative_filtering_simple
        (prepare_data engine0
          [{ id := some 1, title := some "alpha" }, { id := some 2, title := some "alpha" },
            { id := some 3, title := some "beta" }])
        [("alpha", 5)]
        [{ id := some 1, title := some "alpha" }, { id := some 2, title := some "alpha" },
          { id := some 3, title := some "beta" }] 2)
    ∧ ((∀ r : ℚ, ("beta", r) ∉ ([("alpha", (5 : ℚ))] : List (String × ℚ)))
      ∧ (0 : ℚ) ∈ scoresFor (collabContributions
          (prepare_data engine0
            [{ id := some 1, title := some "alpha" }, { id := some 2, title := some "alpha" },
              { id := some 3, title := some "beta" }])
          [("alpha", 5)]
          [{ id := some 1, title := some "alpha" }, { id := some 2, title := some "alpha" },
            { id := some 3, title := some "beta" }] 2) "beta"
      ∧ ∀ x ∈ scoresFor (collabContributions
          (prepare_data engine0
            [{ id := some 1, title := some "alpha" }, { id := some 2, title := some "alpha" },
              { id := some 3, title := some "beta" }])
          [("alpha", 5)]
          [{ id := some 1, title := some "alpha" }, { id := some 2, title := some "alpha" },
            { id := some 3, title := some "beta" }] 2) "beta", x ≤ (0 : ℚ)) := by
  refine ⟨by with_unfolding_all decide, ?_⟩
  exact C7_collaborative_max_score
    (prepare_data engine0
      [{ id := some 1, title := some "alpha" }, { id := some 2, title := some "alpha" },
        { id := some 3, title := some "beta" }])
    [("alpha", 5)]
    [{ id := some 1, title := some "alpha" }, { id := some 2, title := some "alpha" },
      { id := some 3, title := some "beta" }] 2 "beta" 0
    (by with_unfolding_all decide)

/-! ## C1: hybrid with only user ratings -/

/-- Sorted in weakly descending score order. -/
def descSorted (l : List (String × ℚ)) : Prop :=
  l.Pairwise (fun a b => b.2 ≤ a.2)

theorem insertDescBy_pairwise (x : String × ℚ) :
    ∀ (l : List (String × ℚ)), descSorted l →
      descSorted (insertDescBy (fun a b => a.2 > b.2) x l) := by
  intro l
  induction l with
  | nil => intro _; unfold insertDescBy descSorted; simp
  | cons y rest ih =>
      intro h
      rcases List.pairwise_cons.mp h with ⟨hall, hrest⟩
      unfold insertDescBy
      split
      · rename_i hgt
        simp only [decide_eq_true_eq] at hgt
        apply List.pairwise_cons.mpr
        refine ⟨?_, h⟩
        intro b hb
        rcases List.mem_cons.mp hb with h' | h'
        · subst h'
          exact le_of_lt hgt
        · exact le_trans (hall b h') (le_of_lt hgt)
      · rename_i hngt
        simp only [decide_eq_true_eq] at hngt
        apply List.pairwise_cons.mpr
        constructor
        · intro b hb
          rcases (mem_insertDescBy _ x rest b).mp hb with h' | h'
          · subst h'
            exact le_of_not_lt hngt
          · exact hall b h'
        · exact ih hrest

theorem sortDescBy_descSorted (l : List (String × ℚ)) :
    descSorted (sortDescBy (fun a b => a.2 > b.2) l) := by
  have key : ∀ (l acc : List (String × ℚ)), descSorted acc →
      descSorted (l.foldl (fun acc x => insertDescBy (fun a b => a.2 > b.2) x acc) acc) := by
    intro l
    induction l with
    | nil => intro acc h; exact h
    | cons x rest ih =>
        intro acc h
        rw [List.foldl_cons]
        exact ih _ (insertDescBy_pairwise x acc h)
  exact key l [] (by unfold descSorted; simp)

theorem insertDescBy_append (x : String × ℚ) :
    ∀ (l : List (String × ℚ)), (∀ y ∈ l, x.2 ≤ y.2) →
      insertDescBy (fun a b => a.2 > b.2) x l = l ++ [x] := by
  intro l
  induction l with
  | nil => intro _; rfl
  | cons y rest ih =>
      intro h
      unfold insertDescBy
      rw [if_neg]
      · rw [ih (fun z hz => h z (List.mem_cons_of_mem _ hz))]
        rfl
      · simp only [decide_eq_true_eq]
        exact not_lt_of_le (h y (by simp))

theorem sortDescBy_of_descSorted :
    ∀ (l : List (String × ℚ)), descSorted l →
      sortDescBy (fun a b => a.2 > b.2) l = l := by
  have key : ∀ (l acc : List (String × ℚ)), descSorted l →
      (∀ x ∈ l, ∀ y ∈ acc, x.2 ≤ y.2) →
      l.foldl (fun acc x => insertDescBy (fun a b => a.2 > b.2) x acc) acc
        = acc ++ l := by
    intro l
    induction l with
    | nil => intro acc _ _; simp
    | cons x rest ih =>
        intro acc hl hcross
        rcases List.pairwise_cons.mp hl with ⟨hxall, hrest⟩
        rw [List.foldl_cons]
        rw [insertDescBy_append x acc (fun y hy => hcross x (by simp) y hy)]
        rw [ih (acc ++ [x]) hrest]
        · simp
        · intro z hz y hy
          rcases List.mem_append.mp hy with h' | h'
          · exact hcross z (List.mem_cons_of_mem _ hz) y h'
          · have hy' : y = x := by simpa using h'
            subst hy'
            exact hxall z hz
  intro l h
  unfold sortDescBy
  rw [key l [] h (by simp)]
  simp

theorem insertDescBy_perm {α : Type} (gt : α → α → Bool) (x : α) :
    ∀ (l : List α), List.Perm (insertDescBy gt x l) (x :: l) := by
  intro l
  induction l with
  | nil => exact List.Perm.refl _
  | cons y rest ih =>
      unfold insertDescBy
      split
      · exact List.Perm.refl _
      · exact (List.Perm.cons y ih).trans (List.Perm.swap x y rest)

theorem foldl_insertDescBy_perm {α : Type} (gt : α → α → Bool) :
    ∀ (l acc : List α),
      List.Perm (l.foldl (fun acc x => insertDescBy gt x acc) acc) (l ++ acc) := by
  intro l
  induction l with
  | nil => intro acc; simp [List.Perm.refl]
  | cons x rest ih =>
      intro acc
      rw [List.foldl_cons]
      refine List.Perm.trans (ih (insertDescBy gt x acc)) ?_
      refine List.Perm.trans (List.Perm.append_left rest (insertDescBy_perm gt x acc)) ?_
      exact List.perm_middle

theorem sortDescBy_perm {α : Type} (gt : α → α → Bool) (l : List α) :
    List.Perm (sortDescBy gt l) l := by
  unfold sortDescBy
  refine List.Perm.trans (foldl_insertDescBy_perm gt l []) ?_
  simp [List.Perm.refl]

theorem pySlice_sublist {α : Type} (l : List α) (a b : Int) :
    List.Sublist (pySlice l a b) l := by
  unfold pySlice
  exact List.Sublist.trans (List.take_sublist _ _) (List.drop_sublist _ _)

theorem upsertAdd_fresh (t : String) (s : ℚ) :
    ∀ (acc : List (String × ℚ)), (∀ p ∈ acc, p.1 ≠ t) →
      upsertAdd acc t s = acc ++ [(t, s)] := by
  intro acc
  induction acc with
  | nil => intro _; rfl
  | cons p rest ih =>
      intro h
      obtain ⟨a, b⟩ := p
      unfold upsertAdd
      rw [if_neg (h (a, b) (by simp))]
      rw [ih (fun q hq => h q (List.mem_cons_of_mem _ hq))]
      rfl

theorem foldl_upsertAdd_scaled (k : ℚ) :
    ∀ (l acc : List (String × ℚ)),
      l.Pairwise (fun p q : String × ℚ => p.1 ≠ q.1) →
      (∀ p ∈ l, ∀ q ∈ acc, q.1 ≠ p.1) →
      l.foldl (fun a q => upsertAdd a q.1 (k * q.2)) acc
        = acc ++ l.map (fun q => (q.1, k * q.2)) := by
  intro l
  induction l with
  | nil => intro acc _ _; simp
  | cons p rest ih =>
      intro acc hpair hcross
      rcases List.pairwise_cons.mp hpair with ⟨hpall, hrest⟩
      rw [List.foldl_cons]
      rw [upsertAdd_fresh p.1 (k * p.2) acc (fun q hq => hcross p (by simp) q hq)]
      rw [ih (acc ++ [(p.1, k * p.2)]) hrest]
      · simp
      · intro z hz q hq
        rcases List.mem_append.mp hq with h' | h'
        · exact hcross z (List.mem_cons_of_mem _ hz) q h'
        · have hq' : q = (p.1, k * p.2) := by simpa using h'
          subst hq'
          exact hpall z hz

theorem foldl_sentiment_noop (sents : List (String × ℚ × ℚ)) :
    ∀ (acc : List (String × ℚ)),
      (∀ tr ∈ sents, (acc.any (fun p => p.1 = tr.1)) = false) →
      sents.foldl (fun a tr =>
        if a.any (fun p => p.1 = tr.1) then upsertAdd a tr.1 ((3/10) * tr.2.1)
        else a) acc = acc := by
  induction sents with
  | nil => intro acc _; rfl
  | cons tr rest ih =>
      intro acc h
      rw [List.foldl_cons]
      rw [if_neg (by rw [h tr (by simp)]; simp)]
      exact ih acc (fun tr' htr' => h tr' (List.mem_cons_of_mem _ htr'))

theorem collab_keys_pairwise (e : Engine) (ur : List (String × ℚ))
    (movies : List Movie) (n : Int) :
    (collaborative_filtering_simple e ur movies n).Pairwise
      (fun p q : String × ℚ => p.1 ≠ q.1) := by
  unfold collaborative_filtering_simple
  split
  · simp
  · split
    · simp
    · have hdict := foldl_upsertMax_keys_pairwise
        (collabContributions e ur movies n) [] (by simp)
      have hperm := sortDescBy_perm (fun a b : String × ℚ => a.2 > b.2)
        ((collabContributions e ur movies n).foldl
          (fun acc c => upsertMax acc c.1 c.2) [])
      have hsorted := (List.Perm.pairwise_iff (fun h => Ne.symm h) hperm).mpr hdict
      exact List.Pairwise.sublist (pySlice_sublist _ 0 n) hsorted

theorem collab_descSorted (e : Engine) (ur : List (String × ℚ))
    (movies : List Movie) (n : Int) :
    descSorted (collaborative_filtering_simple e ur movies n) := by
  unfold collaborative_filtering_simple
  split
  · unfold descSorted; simp
  · split
    · unfold descSorted; simp
    · exact List.Pairwise.sublist (pySlice_sublist _ 0 n) (sortDescBy_descSorted _)

/-- C1: when the Hybrid Combiner is called with only `user_ratings` (no seed
title) and the positive-sentiment ranking shares no title with the
collaborative candidates, the result is exactly the Collaborative Estimator's
ranking (as invoked by the combiner, top `2n`) with each score multiplied by
0.3, in the same relative order, cut to the top `n`; and with neither seed
title nor ratings the result is the empty list. -/
theorem C1_hybrid_only_ratings (pol : String → ℚ) (e : Engine)
    (ur : List (String × ℚ)) (movies : List Movie) (n : Int)
    (h1 : ur ≠ []) (h2 : ∃ p ∈ ur, (4 : ℚ) ≤ p.2)
    (hno : ∀ p ∈ sentiment_based_recommendations pol movies (1/5) (2 * n),
      ∀ q ∈ collaborative_filtering_simple e ur movies (2 * n), p.1 ≠ q.1) :
    hybrid_recommendations pol e none (some ur) movies n
      = pySlice ((collaborative_filtering_simple e ur movies (2 * n)).map
          (fun q => (q.1, (3/10) * q.2))) 0 n
    ∧ hybrid_recommendations pol e none none movies n = [] := by
  constructor
  · simp only [hybrid_recommendations]
    have hacc2 : (collaborative_filtering_simple e ur movies (2 * n)).foldl
        (fun a q => upsertAdd a q.1 ((3/10) * q.2)) []
        = (collaborative_filtering_simple e ur movies (2 * n)).map
            (fun q => (q.1, (3/10) * q.2)) := by
      rw [foldl_upsertAdd_scaled (3/10) _ []
        (collab_keys_pairwise e ur movies (2 * n)) (by simp)]
      simp
    rw [hacc2]
    have hcond : ∀ tr ∈ sentiment_based_recommendations pol movies (1/5) (2 * n),
        (((collaborative_filtering_simple e ur movies (2 * n)).map
          (fun q => (q.1, (3/10) * q.2))).any (fun p => p.1 = tr.1)) = false := by
      intro tr htr
      apply List.any_eq_false.mpr
      intro p hp
      rcases List.mem_map.mp hp with ⟨q, hq, hpq⟩
      subst hpq
      simpa using (hno tr htr q hq).symm
    rw [foldl_sentiment_noop _ _ hcond]
    have hsorted : descSorted ((collaborative_filtering_simple e ur movies (2 * n)).map
        (fun q => (q.1, (3/10) * q.2))) :=
      List.Pairwise.map _
        (fun a b hab => mul_le_mul_of_nonneg_left hab (by norm_num))
        (collab_descSorted e ur movies (2 * n))
    rw [sortDescBy_of_descSorted _ hsorted]
  · simp only [hybrid_recommendations]
    rw [foldl_sentiment_noop _ [] (by intro tr _; rfl)]
    rw [show sortDescBy (fun a b : String × ℚ => a.2 > b.2) [] = [] from rfl]
    exact pySlice_nil 0 n

/-- C1 witness: a three-movie corpus, liked title "alpha"; sentiment produces
no candidates (all overviews absent, polarity constantly 0), and the hybrid
output equals the scaled collaborative ranking; with no inputs it is empty. -/
theorem C1_hybrid_only_ratings_witness :
    ([("alpha", (5 : ℚ))] : List (String × ℚ)) ≠ []
    ∧ (∃ p ∈ ([("alpha", (5 : ℚ))] : List (String × ℚ)), (4 : ℚ) ≤ p.2)
    ∧ (∀ p ∈ sentiment_based_recommendations (fun _ => 0)
          [{ id := some 1, title := some "alpha" }, { id := some 2, title := some "alpha" },
            { id := some 3, title := some "beta" }] (1/5) (2 * 1),
        ∀ q ∈ collaborative_filtering_simple
          (prepare_data engine0
            [{ id := some 1, title := some "alpha" }, { id := some 2, title := some "alpha" },
              { id := some 3, title := some "beta" }])
          [("alpha", 5)]
          [{ id := some 1, title := some "alpha" }, { id := some 2, title := some "alpha" },
            { id := some 3, title := some "beta" }] (2 * 1), p.1 ≠ q.1)
    ∧ (hybrid_recommendations (fun _ => 0)
        (prepare_data engine0
          [{ id := some 1, title := some "alpha" }, { id := some 2, title := some "alpha" },
            { id := some 3, title := some "beta" }])
        none (some [("alpha", 5)])
        [{ id := some 1, title := some "alpha" }, { id := some 2, title := some "alpha" },
          { id := some 3, title := some "beta" }] 1
      = pySlice ((collaborative_filtering_simple
          (prepare_data engine0
            [{ id := some 1, title := some "alpha" }, { id := some 2, title := some "alpha" },
              { id := some 3, title := some "beta" }])
          [("alpha", 5)]
          [{ id := some 1, title := some "alpha" }, { id := some 2, title := some "alpha" },
            { id := some 3, title := some "beta" }] (2 * 1)).map
            (fun q => (q.1, (3/10) * q.2))) 0 1)
    ∧ hybrid_recommendations (fun _ => 0)
        (prepare_data engine0
          [{ id := some 1, title := some "alpha" }, { id := some 2, title := some "alpha" },
            { id := some 3, title := some "beta" }])
        none none
        [{ id := some 1, title := some "alpha" }, { id := some 2, title := some "alpha" },
          { id := some 3, title := some "beta" }] 1 = [] := by
  refine ⟨by decide, ⟨("alpha", 5), by simp, by norm_num⟩,
    by with_unfolding_all decide, ?_, ?_⟩
  · exact (C1_hybrid_only_ratings (fun _ => 0)
      (prepare_data engine0
        [{ id := some 1, title := some "alpha" }, { id := some 2, title := some "alpha" },
          { id := some 3, title := some "beta" }])
      [("alpha", 5)]
      [{ id := some 1, title := some "alpha" }, { id := some 2, title := some "alpha" },
        { id := some 3, title := some "beta" }] 1
      (by decide) ⟨("alpha", 5), by simp, by norm_num⟩
      (by with_unfolding_all decide)).1
  · exact (C1_hybrid_only_ratings (fun _ => 0)
      (prepare_data engine0
        [{ id := some 1, title := some "alpha" }, { id := some 2, title := some "alpha" },
          { id := some 3, title := some "beta" }])
      [("alpha", 5)]
      [{ id := some 1, title := some "alpha" }, { id := some 2, title := some "alpha" },
        { id := some 3, title := some "beta" }] 1
      (by decide) ⟨("alpha", 5), by simp, by norm_num⟩
      (by with_unfolding_all decide)).2
